import Mathlib

/-!
Shallow embedding of the hashcat rule-mutation interpreter
(`load_hashcat_rules` and `apply_hashcat_rule` in the `PasswordGuesser`
class), together with theorems settling the specification claims about it.

Strings are modelled as Lean `String` / `List Char`; the per-character
case functions model Python's `str.lower` / `str.upper` / `str.islower`,
which agree with Lean's ASCII `Char.toLower` / `Char.toUpper` /
`Char.isLower` on the ASCII inputs the claims are about.
-/

/-- Value of one hexadecimal digit character, as computed by Python's
`int(c, 16)` on a single character; `none` models the `ValueError` raised
when the character is not a hex digit. -/
def hexVal (c : Char) : Option Nat :=
  if c.isDigit then some (c.toNat - 48)
  else if 'a' ≤ c ∧ c ≤ 'f' then some (c.toNat - 87)
  else if 'A' ≤ c ∧ c ≤ 'F' then some (c.toNat - 55)
  else none

/-- Value of one decimal digit character, as computed by Python's `int(c)`
on a single character; `none` models the `ValueError` for a non-digit. -/
def decVal (c : Char) : Option Nat :=
  if c.isDigit then some (c.toNat - 48) else none

/-- Toggle the case of one character: Python's
`c.upper() if c.islower() else c.lower()`. -/
def toggleCase (c : Char) : Char :=
  if c.isLower then c.toUpper else c.toLower

/-- One iteration of the `for part in parts` loop of `apply_hashcat_rule`:
execute the single instruction token `part` (opcode `part[0]`, raw argument
`part[1:]`) on the current character list `output`. Branches where the
Python code catches `ValueError` / `IndexError`, or guards on emptiness,
return `output` unchanged. An opcode matching no branch falls through the
`elif` chain, leaving `output` unchanged. -/
def applyInstr (part : List Char) (output : List Char) : List Char :=
  match part with
  | [] => output
  | cmd :: arg =>
    if cmd = ':' then output
    else if cmd = 'l' then output.map Char.toLower
    else if cmd = 'u' then output.map Char.toUpper
    else if cmd = 'c' then
      match output.map Char.toLower with
      | [] => output
      | h :: t => h.toUpper :: t
    else if cmd = 'C' then
      match output.map Char.toUpper with
      | [] => output
      | h :: t => h.toLower :: t
    else if cmd = 't' then output.map toggleCase
    else if cmd = 'r' then output.reverse
    else if cmd = '[' then output.tail
    else if cmd = ']' then output.dropLast
    else if cmd = '$' then
      match arg with
      | [] => output
      | a :: _ => output ++ [a]
    else if cmd = '^' then
      match arg with
      | [] => output
      | a :: _ => a :: output
    else if cmd = 'T' then
      match arg with
      | [] => output
      | a :: _ =>
        match hexVal a with
        | none => output
        | some pos =>
          if h : pos < output.length then
            output.set pos (toggleCase (output.get ⟨pos, h⟩))
          else output
    else if cmd = 'D' then
      match arg with
      | [] => output
      | a :: _ =>
        match decVal a with
        | none => output
        | some n =>
          if h : 0 < n ∧ n - 1 < output.length then
            output.insertIdx n (output.get ⟨n - 1, h.2⟩)
          else output
    else if cmd = '+' then
      match arg with
      | [] => output
      | a :: _ => output ++ [a]
    else if cmd = '-' then
      match arg with
      | [] => output
      | a :: _ => a :: output
    else output

/-- Split a character list on runs of whitespace, discarding empty pieces:
Python's `str.split()` with no separator, as used by `rule.split()`. -/
def splitWsAux : List Char → List Char → List (List Char)
  | [], cur => if cur = [] then [] else [cur.reverse]
  | c :: rest, cur =>
    if c.isWhitespace then
      if cur = [] then splitWsAux rest []
      else cur.reverse :: splitWsAux rest []
    else splitWsAux rest (c :: cur)

/-- Tokens of a rule string: `rule.split()` in the source. -/
def splitTokens (rule : String) : List (List Char) :=
  splitWsAux rule.toList []

/-- Embedding of `PasswordGuesser.apply_hashcat_rule(word, rule)`:
an empty word returns `""` immediately; otherwise the word's characters
are threaded left-to-right through the instruction tokens of `rule`
and joined back into a string. -/
def apply_hashcat_rule (word : String) (rule : String) : String :=
  if word = "" then ""
  else ((splitTokens rule).foldl (fun out part => applyInstr part out) word.toList).asString

/-- State of the rule file as seen by `load_hashcat_rules`: the file may be
missing (`os.path.exists` is false), unreadable (opening or reading raises,
caught by the `except Exception` handler), or present with a list of lines. -/
inductive FileState where
  | missing : FileState
  | unreadable : FileState
  | content : List String → FileState

/-- Python's `line.strip()`: remove whitespace from both ends of a string. -/
def pyStrip (s : String) : String :=
  ((s.toList.dropWhile Char.isWhitespace).reverse.dropWhile Char.isWhitespace).reverse.asString

/-- Keep a stripped line: the `if line and not line.startswith('#')` test —
the line is non-empty and its first character is not `#`. -/
def keepLine (l : String) : Bool :=
  match l.toList with
  | [] => false
  | c :: _ => !(c = '#')

/-- The `for line in f` loop of `load_hashcat_rules`, accumulating `rules`. -/
def loadLoop : List String → List String → List String
  | [], rules => rules
  | line :: rest, rules =>
    let l := pyStrip line
    if keepLine l then loadLoop rest (rules ++ [l])
    else loadLoop rest rules

/-- Embedding of `PasswordGuesser.load_hashcat_rules(rule_file)`. The
`Except` codomain records whether an exception propagates to the caller:
the source returns `[]` when the file does not exist, and wraps reading in
`try ... except Exception` that prints and falls through to `return rules`,
so every path returns normally (`Except.ok`). -/
def load_hashcat_rules (fs : FileState) : Except String (List String) :=
  match fs with
  | .missing => Except.ok []
  | .unreadable => Except.ok []
  | .content lines => Except.ok (loadLoop lines [])

/-- Opcodes that match some branch of the `elif` chain in `apply_hashcat_rule`. -/
def hashcatOpcodes : List Char :=
  [':', 'l', 'u', 'c', 'C', 't', 'r', '[', ']', '$', '^', 'T', 'D', '+', '-']

/-- Decision of the specification's fail-soft conditions for one instruction
token, relative to the current word: the opcode requires an argument that is
missing, requires a numeric argument whose first character is non-numeric,
or resolves to a position outside the current word's bounds. -/
def malformedFor (part : List Char) (output : List Char) : Bool :=
  match part with
  | [] => true
  | cmd :: arg =>
    if cmd = '$' ∨ cmd = '^' ∨ cmd = '+' ∨ cmd = '-' then arg.isEmpty
    else if cmd = 'T' then
      match arg with
      | [] => true
      | a :: _ =>
        match hexVal a with
        | none => true
        | some p => output.length ≤ p
    else if cmd = 'D' then
      match arg with
      | [] => true
      | a :: _ =>
        match decVal a with
        | none => true
        | some n => n = 0 || output.length < n
    else false

theorem toList_asString (l : List Char) : (List.asString l).toList = l := rfl

theorem asString_toList (s : String) : s.toList.asString = s := rfl

theorem asString_ne_empty {l : List Char} (h : l ≠ []) : List.asString l ≠ "" := by
  intro he
  have h2 := congrArg String.toList he
  rw [toList_asString] at h2
  exact h h2

theorem toList_ne_nil {w : String} (h : w ≠ "") : w.toList ≠ [] := by
  intro he
  apply h
  have h2 := congrArg List.asString he
  rw [asString_toList] at h2
  exact h2

theorem apply_of_ne_empty (w r : String) (h : w ≠ "") :
    apply_hashcat_rule w r =
      ((splitTokens r).foldl (fun out part => applyInstr part out) w.toList).asString := by
  unfold apply_hashcat_rule
  rw [if_neg h]

theorem applyInstr_unknown (c : Char) (arg out : List Char) (h : c ∉ hashcatOpcodes) :
    applyInstr (c :: arg) out = out := by
  have hne : ∀ x, x ∈ hashcatOpcodes → ¬c = x := fun x hx he => h (he ▸ hx)
  simp only [applyInstr,
    if_neg (hne ':' (by decide)), if_neg (hne 'l' (by decide)),
    if_neg (hne 'u' (by decide)), if_neg (hne 'c' (by decide)),
    if_neg (hne 'C' (by decide)), if_neg (hne 't' (by decide)),
    if_neg (hne 'r' (by decide)), if_neg (hne '[' (by decide)),
    if_neg (hne ']' (by decide)), if_neg (hne '$' (by decide)),
    if_neg (hne '^' (by decide)), if_neg (hne 'T' (by decide)),
    if_neg (hne 'D' (by decide)), if_neg (hne '+' (by decide)),
    if_neg (hne '-' (by decide))]

theorem applyInstr_T_eq (a : Char) (rest out : List Char) :
    applyInstr ('T' :: a :: rest) out =
      (match hexVal a with
       | none => out
       | some pos =>
         if h : pos < out.length then out.set pos (toggleCase (out.get ⟨pos, h⟩)) else out) := rfl

theorem applyInstr_D_eq (a : Char) (rest out : List Char) :
    applyInstr ('D' :: a :: rest) out =
      (match decVal a with
       | none => out
       | some n =>
         if h : 0 < n ∧ n - 1 < out.length then out.insertIdx n (out.get ⟨n - 1, h.2⟩)
         else out) := rfl

theorem toUpper_def (c : Char) :
    c.toUpper = if c.toNat ≥ 97 ∧ c.toNat ≤ 122 then Char.ofNat (c.toNat - 32) else c := rfl

theorem toNat_ofNat_valid {n : Nat} (h : n.isValidChar) : (Char.ofNat n).toNat = n := by
  simp only [Char.ofNat, dif_pos h, Char.ofNatAux, Char.toNat]
  rfl

theorem toUpper_toUpper (c : Char) : c.toUpper.toUpper = c.toUpper := by
  rw [toUpper_def c]
  by_cases h : c.toNat ≥ 97 ∧ c.toNat ≤ 122
  · rw [if_pos h, toUpper_def]
    have hv : (c.toNat - 32).isValidChar := Or.inl (by omega)
    rw [toNat_ofNat_valid hv, if_neg (by omega)]
  · rw [if_neg h, toUpper_def, if_neg h]

theorem loadLoop_eq (lines : List String) :
    ∀ acc, loadLoop lines acc = acc ++ ((lines.map pyStrip).filter keepLine) := by
  induction lines with
  | nil => intro acc; simp [loadLoop]
  | cons l rest ih =>
    intro acc
    by_cases h : keepLine (pyStrip l) = true
    · simp [loadLoop, h, ih]
    · simp [loadLoop, h, ih, List.filter_cons]

/-- Claim C1, counterexample: `apply_hashcat_rule "" "u $1"` returns `""`,
not `"1"` — the function short-circuits the empty word before executing any
instruction, so the append `$1` is never applied. -/
theorem C1_empty_append_counterexample :
    apply_hashcat_rule "" "u $1" = "" ∧ apply_hashcat_rule "" "u $1" ≠ "1" :=
  ⟨rfl, by decide⟩

/-- Claim C1 as amended: `apply_hashcat_rule` is total over any
(string, rule) pair including the empty string, but the empty word is
short-circuited: for every rule string the result on `""` is `""`, so in
particular `apply_hashcat_rule "" "u $1" = ""` (no instruction, appends
included, applies to the empty word). -/
theorem C1_empty_word_short_circuit :
    (∀ r, apply_hashcat_rule "" r = "") ∧ apply_hashcat_rule "" "u $1" = "" :=
  ⟨fun _ => rfl, rfl⟩

/-- Claim C2, counterexample: when the rule file cannot be opened the loader
does not fail — a missing file yields `Except.ok []` (the `os.path.exists`
guard returns `[]`), and an unreadable file also yields `Except.ok []` (the
`except Exception` handler swallows the error and `return rules` runs). -/
theorem C2_load_missing_counterexample :
    load_hashcat_rules FileState.missing = Except.ok [] ∧
    load_hashcat_rules FileState.unreadable = Except.ok [] :=
  ⟨rfl, rfl⟩

/-- Claim C2 as amended: `load_hashcat_rules` never surfaces an error to the
caller: every file state produces a normal `Except.ok` result; a missing
file and an unreadable file both yield the empty rule list. -/
theorem C2_load_never_fails :
    (∀ fs, ∃ rs, load_hashcat_rules fs = Except.ok rs) ∧
    load_hashcat_rules FileState.missing = Except.ok [] ∧
    load_hashcat_rules FileState.unreadable = Except.ok [] := by
  refine ⟨fun fs => ?_, rfl, rfl⟩
  cases fs <;> exact ⟨_, rfl⟩

/-- Claim C3: `apply_hashcat_rule` is a total function (it always returns a
string), and any instruction token satisfying the fail-soft conditions —
argument missing, non-numeric where a number is required, or resolved
position out of the current word's bounds — leaves the word unchanged, so
execution continues with the next instruction of the fold. -/
theorem C3_fail_soft :
    (∀ w r, ∃ s, apply_hashcat_rule w r = s) ∧
    (∀ part output, malformedFor part output = true → applyInstr part output = output) := by
  constructor
  · exact fun w r => ⟨_, rfl⟩
  · intro part output h
    match part with
    | [] => rfl
    | cmd :: arg =>
      by_cases hc : cmd = '$' ∨ cmd = '^' ∨ cmd = '+' ∨ cmd = '-'
      · have harg : arg = [] := by
          cases arg with
          | nil => rfl
          | cons a rest =>
            exfalso
            rcases hc with hc | hc | hc | hc <;> subst hc <;> rw [malformedFor] at h <;>
              simp at h
        subst harg
        rcases hc with hc | hc | hc | hc <;> subst hc <;> rfl
      · by_cases hT : cmd = 'T'
        · subst hT
          match arg with
          | [] => rfl
          | a :: rest =>
            rw [applyInstr_T_eq]
            rw [malformedFor, if_neg hc, if_pos rfl] at h
            cases hv : hexVal a with
            | none => rfl
            | some p =>
              rw [hv] at h
              simp only [decide_eq_true_eq] at h
              simp only [hv]
              rw [dif_neg (Nat.not_lt.mpr h)]
        · by_cases hD : cmd = 'D'
          · subst hD
            match arg with
            | [] => rfl
            | a :: rest =>
              rw [applyInstr_D_eq]
              rw [malformedFor, if_neg hc, if_neg hT, if_pos rfl] at h
              cases hv : decVal a with
              | none => rfl
              | some n =>
                rw [hv] at h
                simp only [Bool.or_eq_true, decide_eq_true_eq] at h
                simp only [hv]
                rw [dif_neg (by omega)]
          · exfalso
            rw [malformedFor.eq_def] at h
            simp only [if_neg hc, if_neg hT, if_neg hD] at h
            exact Bool.false_ne_true h

/-- Claim C3, witness: the token `D7` on the five-character word `alice`
resolves to an out-of-bounds position, so it is skipped. -/
theorem C3_fail_soft_witness :
    malformedFor ['D', '7'] "alice".toList = true ∧
    applyInstr ['D', '7'] "alice".toList = "alice".toList :=
  ⟨by decide, C3_fail_soft.2 ['D', '7'] "alice".toList (by decide)⟩

theorem splitTokens_u : splitTokens "u" = [['u']] := rfl

theorem splitTokens_r : splitTokens "r" = [['r']] := rfl

theorem applyInstr_u (l : List Char) : applyInstr ['u'] l = l.map Char.toUpper := rfl

theorem applyInstr_r (l : List Char) : applyInstr ['r'] l = l.reverse := rfl

theorem foldl_single (t : List Char) (l : List Char) :
    [t].foldl (fun out part => applyInstr part out) l = applyInstr t l := rfl

theorem map_upper_upper (l : List Char) :
    (l.map Char.toUpper).map Char.toUpper = l.map Char.toUpper := by
  induction l with
  | nil => rfl
  | cons c t ih => simp only [List.map_cons, toUpper_toUpper, ih]

/-- Claim C4: the `TN` instruction toggles the case of the character at
zero-based position N, where N is the value of the first argument character
as one hex digit; a non-hex argument or a position at or past the current
length is a no-op. In particular `T0` on `"alice"` gives `"Alice"` and `T9`
on `"alice"` is a no-op. -/
theorem C4_T_toggle :
    (apply_hashcat_rule "alice" "T0" = "Alice") ∧
    (apply_hashcat_rule "alice" "T9" = "alice") ∧
    (∀ out a rest, hexVal a = none → applyInstr ('T' :: a :: rest) out = out) ∧
    (∀ out a rest p, hexVal a = some p → out.length ≤ p →
      applyInstr ('T' :: a :: rest) out = out) ∧
    (∀ out a rest p (h : p < out.length), hexVal a = some p →
      applyInstr ('T' :: a :: rest) out = out.set p (toggleCase (out.get ⟨p, h⟩))) := by
  refine ⟨by decide, by decide, ?_, ?_, ?_⟩
  · intro out a rest hv
    rw [applyInstr_T_eq, hv]
  · intro out a rest p hv hle
    rw [applyInstr_T_eq, hv]
    exact dif_neg (Nat.not_lt.mpr hle)
  · intro out a rest p h hv
    rw [applyInstr_T_eq, hv]
    exact dif_pos h

/-- Claim C4, witness: `z` is not a hex digit, so `Tz` leaves `alice`
unchanged. -/
theorem C4_T_toggle_witness :
    hexVal 'z' = none ∧ applyInstr ['T', 'z'] "alice".toList = "alice".toList :=
  ⟨by decide, C4_T_toggle.2.2.1 "alice".toList 'z' [] (by decide)⟩

/-- Claim C5: the `DN` instruction duplicates the character at one-based
decimal position N, inserting the copy immediately after the original
(index N−1, insertion at index N); a non-numeric argument, N = 0, or N past
the current length is a no-op. In particular `D1` on `"alice"` gives
`"aalice"`. -/
theorem C5_D_duplicate :
    (apply_hashcat_rule "alice" "D1" = "aalice") ∧
    (∀ out a rest, decVal a = none → applyInstr ('D' :: a :: rest) out = out) ∧
    (∀ out rest, applyInstr ('D' :: '0' :: rest) out = out) ∧
    (∀ out a rest n, decVal a = some n → out.length < n →
      applyInstr ('D' :: a :: rest) out = out) ∧
    (∀ out a rest n (h : n - 1 < out.length), decVal a = some n → 0 < n →
      applyInstr ('D' :: a :: rest) out = out.insertIdx n (out.get ⟨n - 1, h⟩)) := by
  refine ⟨by decide, ?_, ?_, ?_, ?_⟩
  · intro out a rest hv
    rw [applyInstr_D_eq, hv]
  · intro out rest
    have hv : decVal '0' = some 0 := by decide
    rw [applyInstr_D_eq, hv]
    exact dif_neg (by omega)
  · intro out a rest n hv hlt
    rw [applyInstr_D_eq, hv]
    exact dif_neg (by omega)
  · intro out a rest n h hv hn
    rw [applyInstr_D_eq, hv]
    exact dif_pos ⟨hn, h⟩

/-- Claim C5, witness: `D9` on the five-character word `alice` is
out of range, so it is a no-op. -/
theorem C5_D_duplicate_witness :
    decVal '9' = some 9 ∧ applyInstr ['D', '9'] "alice".toList = "alice".toList :=
  ⟨by decide, C5_D_duplicate.2.2.2.1 "alice".toList '9' [] 9 (by decide) (by decide)⟩

/-- Claim C6: an instruction token whose opcode matches no branch of the
`elif` chain (such as `@`) is a no-op, and execution proceeds with the next
token: applying `"@ $X"` agrees with applying `"$X"` on every word, in
particular producing `"aliceX"` from `"alice"`; loading a file containing
the line `@ $X` succeeds and keeps the line as a rule. -/
theorem C6_unknown_opcode_noop :
    (∀ c arg out, c ∉ hashcatOpcodes → applyInstr (c :: arg) out = out) ∧
    (∀ w, apply_hashcat_rule w "@ $X" = apply_hashcat_rule w "$X") ∧
    (apply_hashcat_rule "alice" "@ $X" = "aliceX") ∧
    (load_hashcat_rules (FileState.content ["@ $X"]) = Except.ok ["@ $X"]) := by
  refine ⟨fun c arg out h => applyInstr_unknown c arg out h, fun w => ?_, by decide, rfl⟩
  by_cases hw : w = ""
  · subst hw; rfl
  · rw [apply_of_ne_empty _ _ hw, apply_of_ne_empty _ _ hw]
    have h1 : splitTokens "@ $X" = [['@'], ['$', 'X']] := rfl
    have h2 : splitTokens "$X" = [['$', 'X']] := rfl
    rw [h1, h2]
    simp only [List.foldl_cons, List.foldl_nil]
    rw [applyInstr_unknown '@' [] _ (by decide)]

/-- Claim C6, witness: `@` is not one of the recognized opcodes and the
token `@x` leaves `alice` unchanged. -/
theorem C6_unknown_opcode_witness :
    ('@' ∉ hashcatOpcodes) ∧ applyInstr ['@', 'x'] "alice".toList = "alice".toList :=
  ⟨by decide, C6_unknown_opcode_noop.1 '@' ['x'] "alice".toList (by decide)⟩

/-- Claim C7: loading file contents yields exactly the stripped non-blank,
non-comment lines, in original order (the loader is the order-preserving
filter of the stripped lines), and the ruleset length equals the count of
kept lines; re-loading the same contents trivially yields the same
sequence since the loader is a pure function of the lines. -/
theorem C7_load_order_and_count (lines : List String) :
    load_hashcat_rules (FileState.content lines) =
      Except.ok ((lines.map pyStrip).filter keepLine) ∧
    ((lines.map pyStrip).filter keepLine).length =
      (lines.map pyStrip).countP keepLine := by
  constructor
  · show Except.ok (loadLoop lines []) = _
    rw [loadLoop_eq lines []]
    rfl
  · rw [List.countP_eq_length_filter]

/-- Claim C8: uppercasing (`u`) is idempotent under repeated application,
and reversal (`r`) applied twice returns every word unchanged. -/
theorem C8_upper_idem_reverse_invol :
    (∀ w, apply_hashcat_rule (apply_hashcat_rule w "u") "u" = apply_hashcat_rule w "u") ∧
    (∀ w, apply_hashcat_rule (apply_hashcat_rule w "r") "r" = w) := by
  constructor
  · intro w
    by_cases hw : w = ""
    · subst hw; rfl
    · have h1 : apply_hashcat_rule w "u" = (w.toList.map Char.toUpper).asString := by
        rw [apply_of_ne_empty _ _ hw, splitTokens_u, foldl_single, applyInstr_u]
      have hne : (w.toList.map Char.toUpper).asString ≠ "" :=
        asString_ne_empty fun hm => toList_ne_nil hw (List.map_eq_nil_iff.mp hm)
      rw [h1, apply_of_ne_empty _ _ hne, splitTokens_u, foldl_single, applyInstr_u,
        toList_asString, map_upper_upper]
  · intro w
    by_cases hw : w = ""
    · subst hw; rfl
    · have h1 : apply_hashcat_rule w "r" = w.toList.reverse.asString := by
        rw [apply_of_ne_empty _ _ hw, splitTokens_r, foldl_single, applyInstr_r]
      have hne : w.toList.reverse.asString ≠ "" :=
        asString_ne_empty fun hm => toList_ne_nil hw (by simpa using hm)
      rw [h1, apply_of_ne_empty _ _ hne, splitTokens_r, foldl_single, applyInstr_r,
        toList_asString, List.reverse_reverse, asString_toList]

/-- Claim C9: instructions within one rule execute strictly left-to-right,
each acting on the previous output: the application of a rule is the left
fold of the instruction steps over the split tokens, and in particular
`"$1 $2 $3"` on `"alice"` gives `"alice123"` and `"^9"` gives `"9alice"`. -/
theorem C9_left_to_right :
    (apply_hashcat_rule "alice" "$1 $2 $3" = "alice123") ∧
    (apply_hashcat_rule "alice" "^9" = "9alice") ∧
    (∀ w r, w ≠ "" → apply_hashcat_rule w r =
      ((splitTokens r).foldl (fun out part => applyInstr part out) w.toList).asString) ∧
    (∀ t ts out, (t :: ts).foldl (fun out part => applyInstr part out) out =
      ts.foldl (fun out part => applyInstr part out) (applyInstr t out)) :=
  ⟨by decide, by decide, fun w r h => apply_of_ne_empty w r h, fun _ _ _ => rfl⟩

/-- Claim C9, witness: the fold characterization applied to the concrete
word `ab` and rule `u r`. -/
theorem C9_left_to_right_witness :
    ("ab" : String) ≠ "" ∧ apply_hashcat_rule "ab" "u r" =
      ((splitTokens "u r").foldl (fun out part => applyInstr part out) "ab".toList).asString :=
  ⟨by decide, C9_left_to_right.2.2.1 "ab" "u r" (by decide)⟩

/-- Claim C10: when an instruction's argument has more than one character,
only the first argument character matters: for the `$`, `^`, `+`, `-`, `T`
and `D` opcodes a token with argument `a :: rest` behaves exactly like the
token with argument `a` alone; in particular `$ab` appends only `a` and
`T12` toggles position 1 (hex value of `1`), not 18. -/
theorem C10_first_arg_char :
    (∀ out a rest, applyInstr ('$' :: a :: rest) out = applyInstr ['$', a] out) ∧
    (∀ out a rest, applyInstr ('^' :: a :: rest) out = applyInstr ['^', a] out) ∧
    (∀ out a rest, applyInstr ('+' :: a :: rest) out = applyInstr ['+', a] out) ∧
    (∀ out a rest, applyInstr ('-' :: a :: rest) out = applyInstr ['-', a] out) ∧
    (∀ out a rest, applyInstr ('T' :: a :: rest) out = applyInstr ['T', a] out) ∧
    (∀ out a rest, applyInstr ('D' :: a :: rest) out = applyInstr ['D', a] out) ∧
    (apply_hashcat_rule "alice" "$ab" = "alicea") ∧
    (apply_hashcat_rule "alice" "T12" = "aLice") := by
  refine ⟨?_, ?_, ?_, ?_, ?_, ?_, by decide, by decide⟩ <;> intro out a rest <;> rfl
